import Mathlib

/-!
Verification of the PoS final state subsystem (massa-pos-exports/src/types.rs).

Shallow embedding conventions:
* machine integer u64 becomes Nat; wrapping arithmetic is explicit `% 2 ^ 64`,
  saturating arithmetic is `min _ u64Max`;
* `BTreeMap` and `PreHashMap` contents are modelled as association lists sorted
  strictly by a Nat key (the canonical representation of the map's contents);
* byte buffers are `List Nat` whose elements are byte values;
* a `Slot` `(period, thread)` is keyed by `period * 256 + thread`, which is
  order-isomorphic to the lexicographic `(period, thread)` order because
  `thread` is a `u8`;
* fallible operations return `Except ModelsError _` together with the
  post-state (the Rust functions take `&mut self`; every error path of the
  source returns before any mutation).
-/

def u64Max : Nat := 2 ^ 64 - 1

/-- Saturating u64 addition, as used by `Amount::saturating_add` and
`u64::saturating_add` in the source. -/
def satAdd (a b : Nat) : Nat := min (a + b) u64Max

/-- Contents of an ordered map with Nat keys: an association list kept sorted
strictly by key. Models `BTreeMap` and the key-value contents of `PreHashMap`. -/
def NMap (β : Type) : Type := List (Nat × β)

instance (β : Type) [DecidableEq β] : DecidableEq (NMap β) :=
  inferInstanceAs (DecidableEq (List (Nat × β)))

instance (β : Type) : Membership (Nat × β) (NMap β) :=
  inferInstanceAs (Membership (Nat × β) (List (Nat × β)))

def NMap.find? {β : Type} : NMap β → Nat → Option β
  | [], _ => none
  | p :: t, k => if k = p.1 then some p.2 else NMap.find? t k

/-- Sorted insert replacing an existing binding (the `insert` of `BTreeMap`
and `HashMap`). -/
def NMap.insert {β : Type} : NMap β → Nat → β → NMap β
  | [], k, v => [(k, v)]
  | p :: t, k, v =>
    if k < p.1 then (k, v) :: p :: t
    else if k = p.1 then (k, v) :: t
    else p :: NMap.insert t k v

/-- `extend` / `collect` of a map from a sequence of pairs: insert each pair in
order, later bindings overwriting earlier ones. -/
def NMap.insertList {β : Type} (m : NMap β) (l : List (Nat × β)) : NMap β :=
  l.foldl (fun acc p => acc.insert p.1 p.2) m

/-- Representation invariant: keys strictly increasing. -/
def NMap.Wf {β : Type} (m : NMap β) : Prop :=
  m.Pairwise (fun a b => a.1 < b.1)

instance {β : Type} (m : NMap β) : Decidable (NMap.Wf m) :=
  inferInstanceAs (Decidable (m.Pairwise _))

/-- Block production statistics (`ProductionStats` in types.rs). -/
structure ProductionStats where
  block_success_count : Nat
  block_failure_count : Nat
  deriving DecidableEq

/-- `ProductionStats::extend`: saturating add of both counters. -/
def ProductionStats.extend (a b : ProductionStats) : ProductionStats :=
  { block_success_count := satAdd a.block_success_count b.block_success_count
    block_failure_count := satAdd a.block_failure_count b.block_failure_count }

/-- `ProductionStats::is_satisfying`. The source computes
`self.block_success_count + self.block_failure_count` with the plain u64 `+`
(wrapping in release builds), then compares
`Ratio::new(block_failure_count, opportunities_count) <= max_miss_ratio`,
an exact rational comparison; with positive denominators it is the
cross multiplication below. `num` / `den` are the numerator and denominator of
`max_miss_ratio`. -/
def ProductionStats.is_satisfying (st : ProductionStats) (num den : Nat) : Bool :=
  let opportunities_count := (st.block_success_count + st.block_failure_count) % 2 ^ 64
  if opportunities_count = 0 then true
  else decide (st.block_failure_count * den ≤ num * opportunities_count)

/-- Variant of `is_satisfying` whose opportunity count uses the saturating
addition that `ProductionStats::extend` uses; for comparison with the plain
addition of the source. -/
def isSatisfyingSat (st : ProductionStats) (num den : Nat) : Bool :=
  let opportunities_count := satAdd st.block_success_count st.block_failure_count
  if opportunities_count = 0 then true
  else decide (st.block_failure_count * den ≤ num * opportunities_count)

/-- `CycleInfo` of types.rs: `roll_counts : BTreeMap<Address, u64>`,
`rng_seed : BitVec<u8>` (a list of bits), `production_stats :
PreHashMap<Address, ProductionStats>`. Addresses are Nat codes of their
32-byte image. -/
structure CycleInfo where
  cycle : Nat
  complete : Bool
  roll_counts : NMap Nat
  rng_seed : List Bool
  production_stats : NMap ProductionStats
  deriving DecidableEq

/-- `DeferredCredits`: `BTreeMap<Slot, PreHashMap<Address, Amount>>`, keyed by
the slot code, amounts by their raw u64. -/
def DeferredCredits : Type := NMap (NMap Nat)

instance : DecidableEq DeferredCredits :=
  inferInstanceAs (DecidableEq (NMap (NMap Nat)))

instance : Membership (Nat × NMap Nat) DeferredCredits :=
  inferInstanceAs (Membership (Nat × NMap Nat) (List (Nat × NMap Nat)))

/-- The underlying entry list of a deferred-credits map. -/
def dcList (d : DeferredCredits) : List (Nat × NMap Nat) := d

instance (p : Nat × NMap Nat) (d : DeferredCredits) : Decidable (p ∈ d) :=
  decidable_of_iff (p ∈ dcList d) Iff.rfl

/-- One step of the inner loop of `DeferredCredits::nested_extend`:
`entry(address).and_modify(saturating add).or_insert(new_amount)`. -/
def innerStep (c : NMap Nat) (q : Nat × Nat) : NMap Nat :=
  match c.find? q.1 with
  | some x => c.insert q.1 (satAdd x q.2)
  | none => c.insert q.1 q.2

/-- Inner loop of `DeferredCredits::nested_extend` over the incoming inner
map. -/
def innerExtend (cur : NMap Nat) (inner : List (Nat × Nat)) : NMap Nat :=
  inner.foldl innerStep cur

/-- One step of `DeferredCredits::nested_extend`:
`entry(slot).and_modify(inner merge).or_insert(new_credits)`. -/
def outerStep (acc : NMap (NMap Nat)) (p : Nat × NMap Nat) : NMap (NMap Nat) :=
  match NMap.find? acc p.1 with
  | some cur => NMap.insert acc p.1 (innerExtend cur p.2)
  | none => NMap.insert acc p.1 p.2

/-- `DeferredCredits::nested_extend`, iterating the incoming map in its
(ascending) order. -/
def DeferredCredits.nested_extend (a b : DeferredCredits) : DeferredCredits :=
  (b : NMap (NMap Nat)).foldl outerStep a

/-- `DeferredCredits::remove_zeros`: drop zero amounts from every inner map,
then drop the slots whose inner map became empty. -/
def DeferredCredits.remove_zeros (d : DeferredCredits) : DeferredCredits :=
  ((d : NMap (NMap Nat)).map
      (fun p => (p.1, (p.2 : NMap Nat).filter (fun q => !(q.2 == 0))))).filter
    (fun p => !(p.2.isEmpty))

/-- The error type (`ModelsError` of massa-models), restricted to the two
variants these functions produce. -/
inductive ModelsError where
  | DeserializeError (msg : String)
  | SerializeError (msg : String)
  deriving DecidableEq

/-- Modelled from the spec: the variable-length unsigned integer codec of
massa-serialization (not under src/): little-endian base-128 with continuation
bit. Fuel-based so that the definition evaluates by kernel reduction; the fuel
`n + 1` always suffices. -/
def varintEncodeAux : Nat → Nat → List Nat
  | 0, _ => []
  | fuel + 1, n => if n < 128 then [n] else (n % 128 + 128) :: varintEncodeAux fuel (n / 128)

def varintEncode (n : Nat) : List Nat := varintEncodeAux (n + 1) n

/-- Modelled from the spec: raw varint decoding, failing when the stream is
exhausted mid-word. -/
def varintDecodeRaw : List Nat → Option (Nat × List Nat)
  | [] => none
  | b :: rest =>
    if b < 128 then some (b, rest)
    else
      match varintDecodeRaw rest with
      | some (n, rest1) => some (n * 128 + (b - 128), rest1)
      | none => none

/-- Modelled from the spec: `U64VarIntDeserializer` parameterized by an
inclusive range, failing when the decoded value falls outside it. -/
def u64P (lo hi : Nat) (input : List Nat) : Option (Nat × List Nat) :=
  match varintDecodeRaw input with
  | some (n, rest) => if lo ≤ n ∧ n ≤ hi then some (n, rest) else none
  | none => none

/-- Modelled from the spec: the fixed 32-byte address codec (no length
prefix). An address is the Nat code of its little-endian 32-byte image. -/
def addrBytes (a : Nat) : List Nat := (List.range 32).map (fun i => a / 256 ^ i % 256)

def natOfBytes (l : List Nat) : Nat := l.foldr (fun b acc => b + 256 * acc) 0

def addrP (input : List Nat) : Option (Nat × List Nat) :=
  if 32 ≤ input.length then some (natOfBytes (input.take 32), input.drop 32) else none

/-- Modelled from the spec: the amount codec: varint of the internal integer
representation, bounded by the Amount range (raw u64). -/
def amountP (input : List Nat) : Option (Nat × List Nat) := u64P 0 u64Max input

/-- Modelled from the spec: the slot codec: `period` as a varint bounded by
the u64 range, then `thread` as a single byte bounded by `[0, thread_count)`.
The result is the slot code `period * 256 + thread`. -/
def slotP (thread_count : Nat) (input : List Nat) : Option (Nat × List Nat) :=
  match u64P 0 u64Max input with
  | some (period, r) =>
    match r with
    | t :: r1 => if t < thread_count then some (period * 256 + t, r1) else none
    | [] => none
  | none => none

def slotBytes (k : Nat) : List Nat := varintEncode (k / 256) ++ [k % 256]

/-- Bits of one byte, most significant first. -/
def byteBits (b : Nat) : List Bool := (List.range 8).map (fun i => b / 2 ^ (7 - i) % 2 = 1)

/-- Pack a bit sequence into bytes, first bit in the most significant bit of
the first byte, the final partial byte padded with zero bits. `acc` holds the
`k` bits accumulated so far (`k < 8`). -/
def packBitsAux : List Bool → Nat → Nat → List Nat
  | [], acc, k => if k = 0 then [] else [acc * 2 ^ (8 - k)]
  | b :: t, acc, k =>
    if k = 7 then (acc * 2 + (if b then 1 else 0)) :: packBitsAux t 0 0
    else packBitsAux t (acc * 2 + (if b then 1 else 0)) (k + 1)

/-- Modelled from the spec: the bit-vector codec: varint bit-length, then the
packed bytes. -/
def bitvecBytes (bits : List Bool) : List Nat :=
  varintEncode bits.length ++ packBitsAux bits 0 0

/-- Modelled from the spec: `BitVecDeserializer`: varint bit-length `n`, then
the ceiling of `n / 8` bytes; the padding bits must be zero. -/
def bitvecP (input : List Nat) : Option (List Bool × List Nat) :=
  match u64P 0 u64Max input with
  | some (n, rest) =>
    let nbytes := (n + 7) / 8
    if nbytes ≤ rest.length then
      let bits := ((rest.take nbytes).map byteBits).flatten
      if (bits.drop n).all (fun b => b = false) then some (bits.take n, rest.drop nbytes)
      else none
    else none
  | none => none

/-- The `tag(&[1]) / tag(&[0])` alternative parsing the `complete` flag. -/
def boolTagP : List Nat → Option (Bool × List Nat)
  | 1 :: rest => some (true, rest)
  | 0 :: rest => some (false, rest)
  | _ => none

/-- Sequencing of two parsers, as nom's `tuple`. -/
def pairP {α β : Type} (p : List Nat → Option (α × List Nat))
    (q : List Nat → Option (β × List Nat)) (input : List Nat) :
    Option ((α × β) × List Nat) :=
  match p input with
  | some (a, r) =>
    match q r with
    | some (b, r1) => some ((a, b), r1)
    | none => none
  | none => none

/-- `n` repetitions of a parser, the element part of nom's `length_count`. -/
def repP {α : Type} (p : List Nat → Option (α × List Nat)) :
    Nat → List Nat → Option (List α × List Nat)
  | 0, input => some ([], input)
  | n + 1, input =>
    match p input with
    | some (a, rest) =>
      match repP p n rest with
      | some (as_, rest1) => some (a :: as_, rest1)
      | none => none
    | none => none

/-- nom's `length_count`: parse a count, then that many elements. -/
def lengthCountP {α : Type} (pc : List Nat → Option (Nat × List Nat))
    (p : List Nat → Option (α × List Nat)) (input : List Nat) :
    Option (List α × List Nat) :=
  match pc input with
  | some (n, rest) => repP p n rest
  | none => none

/-- The tuple deserialized by `set_cycle_history_part` (one `CycleInfo`
payload), with `production_stats` already mapped to `ProductionStats`
records as the source's `stats_iter` does. -/
structure ParsedCycle where
  cycle : Nat
  complete : Bool
  rolls : List (Nat × Nat)
  seed : List Bool
  stats : List (Nat × ProductionStats)
  deriving DecidableEq

/-- The nom `tuple` of `set_cycle_history_part` (types.rs lines 246-305):
cycle varint, complete tag, `length_count` of roll entries, rng seed bit
vector, `length_count` of production-stat entries. -/
def parseCycleHistoryPayload (input : List Nat) : Option (ParsedCycle × List Nat) :=
  match u64P 0 u64Max input with
  | none => none
  | some (cycle, r1) =>
    match boolTagP r1 with
    | none => none
    | some (complete, r2) =>
      match lengthCountP (u64P 0 u64Max) (pairP addrP (u64P 0 u64Max)) r2 with
      | none => none
      | some (rolls, r3) =>
        match bitvecP r3 with
        | none => none
        | some (seed, r4) =>
          match lengthCountP (u64P 0 u64Max) (pairP addrP (pairP (u64P 0 u64Max) (u64P 0 u64Max))) r4 with
          | none => none
          | some (stats, r5) =>
            some
              ({ cycle := cycle
                 complete := complete
                 rolls := rolls
                 seed := seed
                 stats := stats.map fun q =>
                   (q.1, { block_success_count := q.2.1, block_failure_count := q.2.2 }) },
               r5)

/-- The nom `length_count` of `set_deferred_credits_part` (types.rs lines
338-369): count, then per entry a slot and a `length_count` of
(address, amount) pairs. -/
def parseDeferredCreditsPayload (thread_count : Nat) (input : List Nat) :
    Option (List (Nat × List (Nat × Nat)) × List Nat) :=
  lengthCountP (u64P 0 u64Max)
    (pairP (slotP thread_count) (lengthCountP (u64P 0 u64Max) (pairP addrP amountP))) input

/-- `PoSFinalState` restricted to the fields the bootstrap streaming
functions read or write. `cycle_history` is the `VecDeque` with the newest
cycle at the back, modelled with the back as the last list element. -/
structure PoSFinalState where
  cycle_history : List CycleInfo
  deferred_credits : DeferredCredits
  initial_rolls : NMap Nat
  periods_per_cycle : Nat
  thread_count : Nat
  deriving DecidableEq

/-- `PoSFinalState::get_first_cycle_index`: skip the bootstrap safety cycle
when the history holds at least 6 cycles (hard-coded `history_length`). -/
def PoSFinalState.get_first_cycle_index (s : PoSFinalState) : Nat :=
  if 6 ≤ s.cycle_history.length then 1 else 0

/-- `self.cycle_history.iter().position(|cycle| cycle.cycle == last_cycle)`. -/
def findPos (c : Nat) : List CycleInfo → Option Nat
  | [] => none
  | ci :: t => if ci.cycle = c then some 0 else (findPos c t).map (fun i => i + 1)

/-- The one-`CycleInfo` emission of `get_cycle_history_part` (types.rs lines
166-182): cycle varint, complete byte, roll counts with length prefix, rng
seed bit vector, production stats with length prefix. -/
def serializeCycleInfo (info : CycleInfo) : List Nat :=
  varintEncode info.cycle
    ++ [if info.complete then 1 else 0]
    ++ varintEncode info.roll_counts.length
    ++ (List.map (fun p => addrBytes p.1 ++ varintEncode p.2) info.roll_counts).flatten
    ++ bitvecBytes info.rng_seed
    ++ varintEncode info.production_stats.length
    ++ (List.map
          (fun p =>
            addrBytes p.1 ++ varintEncode p.2.block_success_count
              ++ varintEncode p.2.block_failure_count)
          info.production_stats).flatten

/-- The tail of `get_cycle_history_part` once the cycle index is resolved:
serialize the cycle at that index when it exists, else return the empty
part with no cursor. -/
def emitAt (s : PoSFinalState) (idx : Nat) : List Nat × Option Nat × Option Bool :=
  match s.cycle_history[idx]? with
  | some info => (serializeCycleInfo info, some info.cycle, some info.complete)
  | none => ([], none, none)

/-- `PoSFinalState::get_cycle_history_part` (types.rs lines 132-187).
Serialization of a u64 cannot fail, so the `Result` wrapper of the source is
dropped. `index.saturating_add(1)` is a plain `+ 1`: `index` is a position in
the history. -/
def PoSFinalState.get_cycle_history_part (s : PoSFinalState) (cursor : Option Nat) :
    List Nat × Option Nat × Option Bool :=
  match cursor with
  | some last_cycle =>
    match findPos last_cycle s.cycle_history with
    | some index =>
      if index = s.cycle_history.length - 1 then ([], cursor, some false)
      else emitAt s (index + 1)
    | none => emitAt s s.get_first_cycle_index
  | none => emitAt s s.get_first_cycle_index

/-- The bytes emitted by `get_deferred_credits_part` for one slot of the
range: slot, varint inner length, then the (address, amount) pairs. -/
def creditEntryBytes (p : Nat × NMap Nat) : List Nat :=
  slotBytes p.1 ++ varintEncode p.2.length
    ++ (List.map (fun q => addrBytes q.1 ++ varintEncode q.2) p.2).flatten

/-- The `range((Excluded(cursor), Unbounded))` scan of `deferred_credits`: on
the sorted entry list, the entries whose slot lies strictly above the cursor
(all entries when the cursor is `None`). -/
def rangeOf (s : PoSFinalState) (cursor : Option Nat) : List (Nat × NMap Nat) :=
  match cursor with
  | some k => (dcList s.deferred_credits).filter (fun p => decide (k < p.1))
  | none => dcList s.deferred_credits

/-- `PoSFinalState::get_deferred_credits_part` (types.rs lines 196-232):
range-scan `deferred_credits` above the cursor; when the range is non-empty
first emit the length of the full map, then every entry of the range,
tracking the last slot emitted. -/
def PoSFinalState.get_deferred_credits_part (s : PoSFinalState) (cursor : Option Nat) :
    List Nat × Option Nat :=
  let range : List (Nat × NMap Nat) := rangeOf s cursor
  let part0 : List Nat :=
    if range.isEmpty then [] else varintEncode (dcList s.deferred_credits).length
  range.foldl
    (fun (acc : List Nat × Option Nat) (p : Nat × NMap Nat) =>
      (acc.1 ++ creditEntryBytes p, some p.1))
    (part0, none)

/-- The merged back entry of `set_cycle_history_part` when the payload's
cycle equals the newest retained cycle: overwrite `complete`, extend
`roll_counts`, append the rng seed bits, extend `production_stats`. -/
def mergeCycleInfo (info : CycleInfo) (c : ParsedCycle) : CycleInfo :=
  { cycle := info.cycle
    complete := c.complete
    roll_counts := info.roll_counts.insertList c.rolls
    rng_seed := info.rng_seed ++ c.seed
    production_stats := info.production_stats.insertList c.stats }

/-- The `CycleInfo` pushed at the back by `set_cycle_history_part` when the
payload's cycle is new: the collected payload maps. -/
def cycleInfoOfPayload (c : ParsedCycle) : CycleInfo :=
  { cycle := c.cycle
    complete := c.complete
    roll_counts := NMap.insertList [] c.rolls
    rng_seed := c.seed
    production_stats := NMap.insertList [] c.stats }

def cycleTrailingMsg : String :=
  "data is left after set_cycle_history_part PoSFinalState part deserialization"

def creditsTrailingMsg : String :=
  "data is left after set_deferred_credits_part PoSFinalState part deserialization"

/-- The mutation step of `set_cycle_history_part` on a fully parsed payload:
when the back of the history exists and carries the payload's cycle, merge in
place, otherwise push a new `CycleInfo` at the back. -/
def applyCyclePayload (hist : List CycleInfo) (c : ParsedCycle) : List CycleInfo :=
  match hist.getLast? with
  | some info =>
    if info.cycle = c.cycle then hist.dropLast ++ [mergeCycleInfo info c]
    else hist ++ [cycleInfoOfPayload c]
  | none => hist ++ [cycleInfoOfPayload c]

/-- `PoSFinalState::set_cycle_history_part` (types.rs lines 238-328). The
parse-failure message stands for the stringified nom error. -/
def PoSFinalState.set_cycle_history_part (s : PoSFinalState) (part : List Nat) :
    Except ModelsError (Option Nat) × PoSFinalState :=
  if part = [] then (Except.ok none, s)
  else
    match parseCycleHistoryPayload part with
    | none => (Except.error (ModelsError.DeserializeError "cycle_history"), s)
    | some (c, rest) =>
      if rest = [] then
        let hist := applyCyclePayload s.cycle_history c
        (Except.ok (hist.getLast?.map CycleInfo.cycle), { s with cycle_history := hist })
      else (Except.error (ModelsError.SerializeError cycleTrailingMsg), s)

/-- `PoSFinalState::set_deferred_credits_part` (types.rs lines 334-385). The
parsed entries are collected into a `BTreeMap` of collected inner maps, merged
with `nested_extend`; the returned cursor is the largest slot of the resulting
map. -/
def PoSFinalState.set_deferred_credits_part (s : PoSFinalState) (part : List Nat) :
    Except ModelsError (Option Nat) × PoSFinalState :=
  if part = [] then (Except.ok none, s)
  else
    match parseDeferredCreditsPayload s.thread_count part with
    | none => (Except.error (ModelsError.DeserializeError "deferred_credits"), s)
    | some (credits, rest) =>
      if rest = [] then
        let new_credits : DeferredCredits :=
          NMap.insertList [] (credits.map (fun p => (p.1, NMap.insertList [] p.2)))
        let dc := DeferredCredits.nested_extend s.deferred_credits new_credits
        (Except.ok (((dc : NMap (NMap Nat)).getLast?).map Prod.fst),
         { s with deferred_credits := dc })
      else (Except.error (ModelsError.SerializeError creditsTrailingMsg), s)

/-- Whether an `Except` result is an error. -/
def exceptIsError {ε α : Type} : Except ε α → Bool
  | Except.error _ => true
  | Except.ok _ => false

deriving instance DecidableEq for Except

/-- The value the last binding of a key in a pair sequence: what a sequence of
map inserts leaves behind for that key. -/
def lastVal {β : Type} : List (Nat × β) → Nat → Option β
  | [], _ => none
  | p :: t, k =>
    match lastVal t k with
    | some v => some v
    | none => if k = p.1 then some p.2 else none

/-- The cycle-history invariant: cycle numbers strictly ascending (back =
newest). -/
def HistSorted (l : List CycleInfo) : Prop :=
  l.Pairwise (fun a b => a.cycle < b.cycle)

instance (l : List CycleInfo) : Decidable (HistSorted l) :=
  inferInstanceAs (Decidable (l.Pairwise _))

/-- Map well-formedness of the entries of a cycle history. -/
def HistMapsWf (l : List CycleInfo) : Prop :=
  ∀ info ∈ l, info.roll_counts.Wf ∧ info.production_stats.Wf

/-- An empty PoS final state used for concrete checks. -/
def exS0 : PoSFinalState :=
  { cycle_history := []
    deferred_credits := []
    initial_rolls := []
    periods_per_cycle := 128
    thread_count := 32 }

/-- A one-`CycleInfo` payload: cycle 0, complete, no roll counts, a single
rng seed bit, no production stats. -/
def exP0 : List Nat := [0, 1, 0, 1, 128, 0]

/-- The parse of `exP0`. -/
def exC0 : ParsedCycle :=
  { cycle := 0, complete := true, rolls := [], seed := [true], stats := [] }

/-- A state with two deferred-credit slots: slot (1,0) crediting address 1
with 10 and slot (2,0) crediting address 2 with 5. -/
def exS4 : PoSFinalState :=
  { exS0 with deferred_credits := [(256, [(1, 10)]), (512, [(2, 5)])] }

def exCi (c : Nat) (b : Bool) : CycleInfo :=
  { cycle := c, complete := b, roll_counts := [], rng_seed := [true], production_stats := [] }

/-- A state retaining cycles 5, 6 and an incomplete cycle 7. -/
def exS5 : PoSFinalState :=
  { exS0 with cycle_history := [exCi 5 true, exCi 6 true, exCi 7 false] }

/-- Deferred credits with a zero amount at slot (2,0): scenario S2. -/
def exD0 : DeferredCredits := [(256, [(1, 10)]), (512, [(1, 0), (2, 5)])]

theorem NMap.find?_eq_none {β : Type} (m : NMap β) (k : Nat) (h : ∀ p ∈ m, p.1 ≠ k) :
    m.find? k = none := by
  induction m with
  | nil => rfl
  | cons p t ih =>
    have hp : ¬ k = p.1 := fun hk => h p (List.mem_cons_self p t) hk.symm
    simp only [NMap.find?, if_neg hp]
    exact ih fun q hq => h q (List.mem_cons_of_mem p hq)

theorem NMap.mem_insert {β : Type} (m : NMap β) (k : Nat) (v : β) (p : Nat × β)
    (h : p ∈ m.insert k v) : p = (k, v) ∨ p ∈ m := by
  induction m with
  | nil =>
    simp only [NMap.insert] at h
    rcases List.mem_singleton.mp h with rfl
    exact Or.inl rfl
  | cons q t ih =>
    simp only [NMap.insert] at h
    by_cases h1 : k < q.1
    · rw [if_pos h1] at h
      rcases List.mem_cons.mp h with rfl | h2
      · exact Or.inl rfl
      · exact Or.inr h2
    · by_cases h2 : k = q.1
      · rw [if_neg h1, if_pos h2] at h
        rcases List.mem_cons.mp h with rfl | h3
        · exact Or.inl rfl
        · exact Or.inr (List.mem_cons_of_mem q h3)
      · rw [if_neg h1, if_neg h2] at h
        rcases List.mem_cons.mp h with rfl | h3
        · exact Or.inr (List.mem_cons_self _ _)
        · rcases ih h3 with h4 | h4
          · exact Or.inl h4
          · exact Or.inr (List.mem_cons_of_mem q h4)

theorem NMap.wf_insert {β : Type} (m : NMap β) (k : Nat) (v : β) (h : m.Wf) :
    (m.insert k v).Wf := by
  induction m with
  | nil => simp [NMap.insert, NMap.Wf]
  | cons p t ih =>
    rcases List.pairwise_cons.mp h with ⟨hp, ht⟩
    simp only [NMap.insert]
    by_cases h1 : k < p.1
    · rw [if_pos h1]
      refine List.pairwise_cons.mpr ⟨?_, h⟩
      intro b hb
      rcases List.mem_cons.mp hb with rfl | hb2
      · exact h1
      · exact h1.trans (hp b hb2)
    · by_cases h2 : k = p.1
      · rw [if_neg h1, if_pos h2]
        exact List.pairwise_cons.mpr ⟨fun b hb => h2 ▸ hp b hb, ht⟩
      · rw [if_neg h1, if_neg h2]
        refine List.pairwise_cons.mpr ⟨?_, ih ht⟩
        intro b hb
        rcases NMap.mem_insert t k v b hb with rfl | hb2
        · exact Nat.lt_of_le_of_ne (Nat.le_of_not_lt h1) fun he => h2 he.symm
        · exact hp b hb2

theorem NMap.find?_insert {β : Type} (m : NMap β) (k : Nat) (v : β) (k2 : Nat) :
    (m.insert k v).find? k2 = if k2 = k then some v else m.find? k2 := by
  induction m with
  | nil =>
    by_cases h : k2 = k <;> simp [NMap.insert, NMap.find?, h]
  | cons p t ih =>
    simp only [NMap.insert]
    by_cases h1 : k < p.1
    · rw [if_pos h1]
      by_cases h3 : k2 = k <;> simp [NMap.find?, h3]
    · by_cases h2 : k = p.1
      · subst h2
        rw [if_neg h1, if_pos rfl]
        by_cases h3 : k2 = p.1 <;> simp [NMap.find?, h3]
      · rw [if_neg h1, if_neg h2]
        by_cases h3 : k2 = p.1
        · have h4 : ¬ k2 = k := fun he : k2 = k => h2 (he ▸ h3)
          simp [NMap.find?, h3, h4, Ne.symm h2]
        · simp only [NMap.find?, if_neg h3]
          exact ih

theorem NMap.ext {β : Type} (m : NMap β) : ∀ m2 : NMap β, m.Wf → m2.Wf →
    (∀ k, m.find? k = m2.find? k) → m = m2 := by
  induction m with
  | nil =>
    intro m2 _ h2 h
    cases m2 with
    | nil => rfl
    | cons q t2 =>
      have hq := h q.1
      simp [NMap.find?] at hq
  | cons p t ih =>
    intro m2 hm hm2 h
    cases m2 with
    | nil =>
      have hp := h p.1
      simp [NMap.find?] at hp
    | cons q t2 =>
      rcases List.pairwise_cons.mp hm with ⟨hpt, ht⟩
      rcases List.pairwise_cons.mp hm2 with ⟨hqt, ht2⟩
      have hkey : p.1 = q.1 := by
        rcases Nat.lt_trichotomy p.1 q.1 with hlt | heq | hgt
        · exfalso
          have hl := h p.1
          have hnone : NMap.find? t2 p.1 = none :=
            NMap.find?_eq_none t2 p.1 fun r hr =>
              Nat.ne_of_gt (hlt.trans (hqt r hr))
          simp [NMap.find?, Nat.ne_of_lt hlt, hnone] at hl
        · exact heq
        · exfalso
          have hl := h q.1
          have hnone : NMap.find? t q.1 = none :=
            NMap.find?_eq_none t q.1 fun r hr =>
              Nat.ne_of_gt (hgt.trans (hpt r hr))
          simp [NMap.find?, Nat.ne_of_lt hgt, hnone] at hl
      have hval : p.2 = q.2 := by
        have hl := h p.1
        simp [NMap.find?, hkey] at hl
        exact hl
      have htail : t = t2 := by
        refine ih t2 ht ht2 ?_
        intro k
        by_cases hk : k = p.1
        · have h5 : NMap.find? t k = none := by
            refine NMap.find?_eq_none t k fun r hr => Nat.ne_of_gt ?_
            rw [hk]
            exact hpt r hr
          have h6 : NMap.find? t2 k = none := by
            refine NMap.find?_eq_none t2 k fun r hr => Nat.ne_of_gt ?_
            rw [hk, hkey]
            exact hqt r hr
          rw [h5, h6]
        · have hl := h k
          have hk2 : ¬ k = q.1 := hkey ▸ hk
          simp only [NMap.find?, if_neg hk, if_neg hk2] at hl
          exact hl
      calc p :: t = (p.1, p.2) :: t := by rw [Prod.mk.eta]
        _ = (q.1, q.2) :: t2 := by rw [hkey, hval, htail]
        _ = q :: t2 := by rw [Prod.mk.eta]

theorem NMap.wf_insertList {β : Type} (l : List (Nat × β)) (m : NMap β) (hm : m.Wf) :
    (m.insertList l).Wf := by
  induction l generalizing m with
  | nil => exact hm
  | cons p t ih =>
    simp only [NMap.insertList, List.foldl_cons] at *
    exact ih (m.insert p.1 p.2) (NMap.wf_insert m p.1 p.2 hm)

theorem NMap.find?_insertList {β : Type} (l : List (Nat × β)) (m : NMap β) (k : Nat) :
    (m.insertList l).find? k =
      match lastVal l k with
      | some v => some v
      | none => m.find? k := by
  induction l generalizing m with
  | nil => rfl
  | cons p t ih =>
    simp only [NMap.insertList, List.foldl_cons] at *
    rw [ih]
    cases hl : lastVal t k with
    | some v => simp [lastVal, hl]
    | none =>
      simp only [lastVal, hl, NMap.find?_insert]
      by_cases h : k = p.1 <;> simp [h]

theorem NMap.insertList_idem {β : Type} (m : NMap β) (l : List (Nat × β)) (hm : m.Wf) :
    (m.insertList l).insertList l = m.insertList l := by
  refine NMap.ext _ _ (NMap.wf_insertList l _ (NMap.wf_insertList l m hm))
    (NMap.wf_insertList l m hm) ?_
  intro k
  rw [NMap.find?_insertList, NMap.find?_insertList]
  cases hv : lastVal l k <;> simp [hv]

theorem innerStep_find? (c : NMap Nat) (q : Nat × Nat) (ak : Nat) :
    NMap.find? (innerStep c q) ak =
      if ak = q.1 then
        match NMap.find? c q.1 with
        | some x => some (satAdd x q.2)
        | none => some q.2
      else NMap.find? c ak := by
  unfold innerStep
  cases h : NMap.find? c q.1 <;> simp [NMap.find?_insert, h]

theorem innerExtend_find? (inner : List (Nat × Nat)) (cur : NMap Nat)
    (hin : NMap.Wf inner) (ak : Nat) :
    NMap.find? (innerExtend cur inner) ak =
      match NMap.find? cur ak, NMap.find? inner ak with
      | some x, some y => some (satAdd x y)
      | some x, none => some x
      | none, some y => some y
      | none, none => none := by
  induction inner generalizing cur with
  | nil =>
    cases h : NMap.find? cur ak <;> simp [innerExtend, NMap.find?, h]
  | cons q t ih =>
    rcases List.pairwise_cons.mp hin with ⟨hq, ht⟩
    rw [show innerExtend cur (q :: t) = innerExtend (innerStep cur q) t from rfl, ih _ ht]
    by_cases hak : ak = q.1
    · have htnone : NMap.find? t ak = none := by
        refine NMap.find?_eq_none t ak fun r hr => Nat.ne_of_gt ?_
        rw [hak]
        exact hq r hr
      rw [innerStep_find?, if_pos hak, htnone]
      simp only [NMap.find?, if_pos hak]
      rw [hak]
      cases hc : NMap.find? cur q.1 <;> simp [hc]
    · rw [innerStep_find?, if_neg hak]
      simp only [NMap.find?, if_neg hak]

theorem outerStep_find? (acc : NMap (NMap Nat)) (p : Nat × NMap Nat) (sk : Nat) :
    NMap.find? (outerStep acc p) sk =
      if sk = p.1 then
        match NMap.find? acc p.1 with
        | some cur => some (innerExtend cur p.2)
        | none => some p.2
      else NMap.find? acc sk := by
  unfold outerStep
  cases h : NMap.find? acc p.1 <;> simp [NMap.find?_insert, h]

theorem nested_extend_find? (b : List (Nat × NMap Nat)) (a : NMap (NMap Nat))
    (hb : NMap.Wf b) (sk : Nat) :
    NMap.find? (DeferredCredits.nested_extend a b) sk =
      match NMap.find? a sk, NMap.find? b sk with
      | some ia, some ib => some (innerExtend ia ib)
      | none, some ib => some ib
      | some ia, none => some ia
      | none, none => none := by
  induction b generalizing a with
  | nil =>
    cases h : NMap.find? a sk <;> simp [DeferredCredits.nested_extend, NMap.find?, h]
  | cons p t ih =>
    rcases List.pairwise_cons.mp hb with ⟨hp, ht⟩
    rw [show DeferredCredits.nested_extend a (p :: t) =
          DeferredCredits.nested_extend (outerStep a p) t from rfl, ih _ ht]
    by_cases hsk : sk = p.1
    · have htnone : NMap.find? t sk = none := by
        refine NMap.find?_eq_none t sk fun r hr => Nat.ne_of_gt ?_
        rw [hsk]
        exact hp r hr
      rw [outerStep_find?, if_pos hsk, htnone]
      simp only [NMap.find?, if_pos hsk]
      rw [hsk]
      cases hc : NMap.find? a p.1 <;> simp [hc]
    · rw [outerStep_find?, if_neg hsk]
      simp only [NMap.find?, if_neg hsk]

theorem foldl_creditEntry (l : List (Nat × NMap Nat)) :
    ∀ (acc : List Nat) (last0 : Option Nat),
      l.foldl
          (fun (a : List Nat × Option Nat) (p : Nat × NMap Nat) =>
            (a.1 ++ creditEntryBytes p, some p.1))
          (acc, last0) =
        (acc ++ (l.map creditEntryBytes).flatten,
         match l.getLast? with
         | some p => some p.1
         | none => last0) := by
  induction l with
  | nil =>
    intro acc last0
    simp
  | cons p t ih =>
    intro acc last0
    rw [List.foldl_cons, ih]
    cases t with
    | nil => simp
    | cons q t2 =>
      cases hgl : (q :: t2).getLast? with
      | none =>
        exact absurd (List.getLast?_eq_none_iff.mp hgl) (List.cons_ne_nil q t2)
      | some r => simp [List.getLast?_cons_cons, hgl]

theorem findPos_getElem (l : List CycleInfo) (hs : HistSorted l) :
    ∀ (i : Nat) (info : CycleInfo), l[i]? = some info → findPos info.cycle l = some i := by
  induction l with
  | nil =>
    intro i info h
    simp at h
  | cons a t ih =>
    intro i info h
    cases i with
    | zero =>
      simp only [List.getElem?_cons_zero, Option.some.injEq] at h
      subst h
      simp [findPos]
    | succ n =>
      have ht : t[n]? = some info := by simpa using h
      have hmem : info ∈ t := List.getElem?_mem ht
      have ha : a.cycle < info.cycle := (List.pairwise_cons.mp hs).1 info hmem
      have hne : ¬ a.cycle = info.cycle := Nat.ne_of_lt ha
      simp only [findPos, if_neg hne]
      rw [ih (List.pairwise_cons.mp hs).2 n info ht]
      rfl

theorem findPos_eq_none (l : List CycleInfo) (c : Nat) (h : ∀ info ∈ l, info.cycle ≠ c) :
    findPos c l = none := by
  induction l with
  | nil => rfl
  | cons a t ih =>
    have ha : ¬ a.cycle = c := h a (List.mem_cons_self a t)
    simp only [findPos, if_neg ha]
    rw [ih fun info hi => h info (List.mem_cons_of_mem a hi)]
    rfl

theorem parseCycleHistoryPayload_nil : parseCycleHistoryPayload [] = none := rfl

theorem parseDeferredCreditsPayload_nil (tc : Nat) :
    parseDeferredCreditsPayload tc [] = none := rfl

theorem set_cycle_history_part_success (s : PoSFinalState) (p : List Nat) (c : ParsedCycle)
    (hp : parseCycleHistoryPayload p = some (c, [])) :
    s.set_cycle_history_part p =
      (Except.ok ((applyCyclePayload s.cycle_history c).getLast?.map CycleInfo.cycle),
       { s with cycle_history := applyCyclePayload s.cycle_history c }) := by
  have hne : ¬ p = [] := by
    intro h
    rw [h, parseCycleHistoryPayload_nil] at hp
    exact Option.noConfusion hp
  unfold PoSFinalState.set_cycle_history_part
  rw [if_neg hne, hp]
  simp

theorem applyCyclePayload_last (hist : List CycleInfo) (c : ParsedCycle) :
    ∃ pre info, applyCyclePayload hist c = pre ++ [info] ∧ info.cycle = c.cycle := by
  unfold applyCyclePayload
  cases hl : hist.getLast? with
  | none => exact ⟨hist, cycleInfoOfPayload c, rfl, rfl⟩
  | some info =>
    dsimp only
    by_cases hc : info.cycle = c.cycle
    · rw [if_pos hc]
      exact ⟨hist.dropLast, mergeCycleInfo info c, rfl, hc⟩
    · rw [if_neg hc]
      exact ⟨hist, cycleInfoOfPayload c, rfl, rfl⟩

/-- Claim C7: `nested_extend` inserts the incoming inner map when the slot is
absent, otherwise saturating-adds each incoming amount into the existing
entry or inserts an absent address; and the concrete scenario S3. -/
theorem claim_c7 (a b : DeferredCredits) (hb : NMap.Wf (b : NMap (NMap Nat))) :
    (∀ sk, NMap.find? (DeferredCredits.nested_extend a b) sk =
      match NMap.find? (a : NMap (NMap Nat)) sk, NMap.find? (b : NMap (NMap Nat)) sk with
      | some ia, some ib => some (innerExtend ia ib)
      | none, some ib => some ib
      | some ia, none => some ia
      | none, none => none) ∧
    (∀ (cur : NMap Nat) (inner : List (Nat × Nat)), NMap.Wf inner → ∀ ak,
      NMap.find? (innerExtend cur inner) ak =
        match NMap.find? cur ak, NMap.find? inner ak with
        | some x, some y => some (satAdd x y)
        | some x, none => some x
        | none, some y => some y
        | none, none => none) ∧
    DeferredCredits.nested_extend [(256, [(1, 10)])] [(256, [(1, 5), (2, 7)]), (512, [(3, 1)])] =
      [(256, [(1, 15), (2, 7)]), (512, [(3, 1)])] :=
  ⟨fun sk => nested_extend_find? b a hb sk,
   fun cur inner hin ak => innerExtend_find? inner cur hin ak,
   by decide⟩

/-- Witness for C7 at the concrete S3 scenario. -/
theorem claim_c7_witness :
    DeferredCredits.nested_extend [(256, [(1, 10)])] [(256, [(1, 5), (2, 7)]), (512, [(3, 1)])] =
      [(256, [(1, 15), (2, 7)]), (512, [(3, 1)])] :=
  (claim_c7 [(256, [(1, 10)])] [(256, [(1, 5), (2, 7)]), (512, [(3, 1)])] (by decide)).2.2

theorem remove_zeros_fixpoint (L : DeferredCredits)
    (hL : ∀ p ∈ L, (∀ q ∈ p.2, ¬ q.2 = 0) ∧ p.2 ≠ ([] : List (Nat × Nat))) :
    DeferredCredits.remove_zeros L = L := by
  unfold DeferredCredits.remove_zeros
  have hmap :
      List.map (fun p => (p.1, (p.2 : NMap Nat).filter (fun q => !(q.2 == 0))))
          (L : List (Nat × NMap Nat)) = L := by
    have hid : ∀ p ∈ (L : List (Nat × NMap Nat)),
        (fun p => (p.1, (p.2 : NMap Nat).filter (fun q => !(q.2 == 0)))) p = id p := by
      intro p hp
      have hfil : (p.2 : List (Nat × Nat)).filter (fun q => !(q.2 == 0)) = p.2 := by
        refine List.filter_eq_self.mpr ?_
        intro q hq
        simpa using (hL p hp).1 q hq
      show (p.1, (p.2 : List (Nat × Nat)).filter (fun q => !(q.2 == 0))) = p
      rw [hfil]
      exact Prod.mk.eta
    rw [List.map_congr_left hid, List.map_id]
  rw [hmap]
  refine List.filter_eq_self.mpr ?_
  intro p hp
  simpa using (hL p hp).2

/-- Claim C8: after `remove_zeros` no zero amount and no empty inner map is
retained, and `remove_zeros` is idempotent. -/
theorem claim_c8 (d : DeferredCredits) :
    (∀ p ∈ DeferredCredits.remove_zeros d,
      p.2 ≠ ([] : List (Nat × Nat)) ∧ ∀ q ∈ p.2, q.2 ≠ 0) ∧
    DeferredCredits.remove_zeros (DeferredCredits.remove_zeros d) =
      DeferredCredits.remove_zeros d := by
  have hpost : ∀ p ∈ DeferredCredits.remove_zeros d,
      p.2 ≠ ([] : List (Nat × Nat)) ∧ ∀ q ∈ p.2, q.2 ≠ 0 := by
    intro p hp
    unfold DeferredCredits.remove_zeros at hp
    rcases List.mem_filter.mp hp with ⟨hmap, hne⟩
    constructor
    · intro he
      rw [he] at hne
      simp at hne
    · intro q hq
      rcases List.mem_map.mp hmap with ⟨r, _, hrp⟩
      rw [← hrp] at hq
      have hq2 := (List.mem_filter.mp hq).2
      simpa using hq2
  refine ⟨hpost, remove_zeros_fixpoint _ ?_⟩
  intro p hp
  exact ⟨(hpost p hp).2, (hpost p hp).1⟩

/-- Witness for C8 at the concrete S2 deferred credits. -/
theorem claim_c8_witness :
    DeferredCredits.remove_zeros (DeferredCredits.remove_zeros exD0) =
      DeferredCredits.remove_zeros exD0 ∧
    ([(2, 5)] : List (Nat × Nat)) ≠ [] :=
  ⟨(claim_c8 exD0).2, ((claim_c8 exD0).1 (512, [(2, 5)]) (by decide)).1⟩

/-- Counterexample to C9 as stated: at success u64Max and failure 1 the u64
sum wraps to 0, so the source returns true although the opportunity count is
not zero and the exact rational comparison (failure over opportunities
against the zero ratio) is false. -/
theorem claim_c9_cex :
    ProductionStats.is_satisfying ⟨u64Max, 1⟩ 0 1 = true ∧
    u64Max + 1 ≠ 0 ∧ ¬ (1 * 1 ≤ 0 * (u64Max + 1)) := by decide

/-- Claim C9 amended with the overflow precondition: when success + failure
fits in a u64 and the ratio denominator is positive, `is_satisfying` is true
exactly when there are no opportunities or failure / opportunities is at most
the ratio, compared exactly; the cross multiplication agrees with the
comparison of rational numbers. -/
theorem claim_c9_amended (s f num den : Nat) (hden : 0 < den) (hov : s + f ≤ u64Max) :
    (ProductionStats.is_satisfying ⟨s, f⟩ num den = true ↔
      s + f = 0 ∨ f * den ≤ num * (s + f)) ∧
    (0 < s + f → (f * den ≤ num * (s + f) ↔
      (f : ℚ) / ((s : ℚ) + (f : ℚ)) ≤ (num : ℚ) / (den : ℚ))) := by
  have hlt : s + f < 2 ^ 64 := Nat.lt_of_le_of_lt hov (by norm_num [u64Max])
  have hmod : (s + f) % 2 ^ 64 = s + f := Nat.mod_eq_of_lt hlt
  constructor
  · unfold ProductionStats.is_satisfying
    dsimp only
    rw [hmod]
    by_cases h0 : s + f = 0
    · simp [h0]
    · simp [h0]
  · intro hpos
    have hq1 : (0 : ℚ) < (s : ℚ) + (f : ℚ) := by exact_mod_cast hpos
    have hq2 : (0 : ℚ) < (den : ℚ) := by exact_mod_cast hden
    rw [div_le_div_iff₀ hq1 hq2]
    constructor
    · intro h
      exact_mod_cast h
    · intro h
      exact_mod_cast h

/-- Witness for the amended C9: the concrete scenario of the claim. -/
theorem claim_c9_witness :
    ProductionStats.is_satisfying ⟨3, 3⟩ 1 2 = true ∧
    ProductionStats.is_satisfying ⟨3, 3⟩ 1 3 = false := by
  constructor
  · exact (claim_c9_amended 3 3 1 2 (by decide) (by decide)).1.mpr (Or.inr (by decide))
  · have h := (claim_c9_amended 3 3 1 3 (by decide) (by decide)).1
    cases hB : ProductionStats.is_satisfying ⟨3, 3⟩ 1 3 with
    | false => rfl
    | true => exact absurd (h.mp hB) (by decide)

/-- Claim C10: `is_satisfying` counts opportunities with the plain (wrapping)
u64 addition while `extend` saturates; under the precondition that the sum
fits in a u64 the two notions agree, and without it they differ at a concrete
overflowing input. -/
theorem claim_c10 (s f num den : Nat) (h : s + f ≤ u64Max) :
    (ProductionStats.is_satisfying ⟨s, f⟩ num den = isSatisfyingSat ⟨s, f⟩ num den) ∧
    (ProductionStats.is_satisfying ⟨u64Max, 1⟩ 0 1 = true ∧
      isSatisfyingSat ⟨u64Max, 1⟩ 0 1 = false) ∧
    (∀ a b : ProductionStats, ProductionStats.extend a b =
      { block_success_count := min (a.block_success_count + b.block_success_count) u64Max
        block_failure_count := min (a.block_failure_count + b.block_failure_count) u64Max }) := by
  refine ⟨?_, by decide, fun a b => rfl⟩
  have hlt : s + f < 2 ^ 64 := Nat.lt_of_le_of_lt h (by norm_num [u64Max])
  have hmod : (s + f) % 2 ^ 64 = s + f := Nat.mod_eq_of_lt hlt
  have hsat : satAdd s f = s + f := min_eq_left h
  unfold ProductionStats.is_satisfying isSatisfyingSat
  dsimp only
  rw [hmod, hsat]

/-- Witness for C10 at a small concrete input. -/
theorem claim_c10_witness :
    ProductionStats.is_satisfying ⟨3, 4⟩ 1 2 = isSatisfyingSat ⟨3, 4⟩ 1 2 :=
  (claim_c10 3 4 1 2 (by decide)).1

/-- Claim C2 (the general trailing-bytes behavior of the source): whenever the
payload parses with at least one byte remaining, both setters fail — but with
the `SerializeError` variant, not the `DeserializeError` the claim names. -/
theorem claim_c2 (s : PoSFinalState) (pc pd : List Nat) (c : ParsedCycle)
    (cr : List (Nat × List (Nat × Nat))) (rc rd : List Nat) :
    (parseCycleHistoryPayload pc = some (c, rc) → rc ≠ [] →
      s.set_cycle_history_part pc =
        (Except.error (ModelsError.SerializeError cycleTrailingMsg), s)) ∧
    (parseDeferredCreditsPayload s.thread_count pd = some (cr, rd) → rd ≠ [] →
      s.set_deferred_credits_part pd =
        (Except.error (ModelsError.SerializeError creditsTrailingMsg), s)) := by
  constructor
  · intro hp hr
    have hne : ¬ pc = [] := by
      intro h
      rw [h, parseCycleHistoryPayload_nil] at hp
      exact Option.noConfusion hp
    unfold PoSFinalState.set_cycle_history_part
    rw [if_neg hne, hp]
    dsimp only
    rw [if_neg hr]
  · intro hp hr
    have hne : ¬ pd = [] := by
      intro h
      rw [h, parseDeferredCreditsPayload_nil] at hp
      exact Option.noConfusion hp
    unfold PoSFinalState.set_deferred_credits_part
    rw [if_neg hne, hp]
    dsimp only
    rw [if_neg hr]

/-- Witness for C2: a valid one-cycle payload with one trailing byte, and a
valid empty deferred-credits payload with one trailing byte. -/
theorem claim_c2_witness :
    exS0.set_cycle_history_part (exP0 ++ [7]) =
      (Except.error (ModelsError.SerializeError cycleTrailingMsg), exS0) ∧
    exS0.set_deferred_credits_part [0, 7] =
      (Except.error (ModelsError.SerializeError creditsTrailingMsg), exS0) :=
  ⟨(claim_c2 exS0 (exP0 ++ [7]) [0, 7] exC0 [] [7] [7]).1 (by decide) (by decide),
   (claim_c2 exS0 (exP0 ++ [7]) [0, 7] exC0 [] [7] [7]).2 (by decide) (by decide)⟩

/-- Claim C3: a failing `set_cycle_history_part` or `set_deferred_credits_part`
leaves the state untouched. -/
theorem claim_c3 (s : PoSFinalState) (p : List Nat) :
    (exceptIsError (s.set_cycle_history_part p).1 = true →
      (s.set_cycle_history_part p).2 = s) ∧
    (exceptIsError (s.set_deferred_credits_part p).1 = true →
      (s.set_deferred_credits_part p).2 = s) := by
  constructor
  · intro h
    by_cases hne : p = []
    · rw [hne] at h
      unfold PoSFinalState.set_cycle_history_part at h
      simp [exceptIsError] at h
    · cases hp : parseCycleHistoryPayload p with
      | none =>
        unfold PoSFinalState.set_cycle_history_part
        rw [if_neg hne, hp]
      | some pr =>
        obtain ⟨c, rest⟩ := pr
        by_cases hr : rest = []
        · subst hr
          rw [set_cycle_history_part_success s p c hp] at h
          simp [exceptIsError] at h
        · unfold PoSFinalState.set_cycle_history_part
          rw [if_neg hne, hp]
          dsimp only
          rw [if_neg hr]
  · intro h
    by_cases hne : p = []
    · rw [hne] at h
      unfold PoSFinalState.set_deferred_credits_part at h
      simp [exceptIsError] at h
    · cases hp : parseDeferredCreditsPayload s.thread_count p with
      | none =>
        unfold PoSFinalState.set_deferred_credits_part
        rw [if_neg hne, hp]
      | some pr =>
        obtain ⟨cr, rest⟩ := pr
        by_cases hr : rest = []
        · subst hr
          unfold PoSFinalState.set_deferred_credits_part at h
          rw [if_neg hne, hp] at h
          simp [exceptIsError] at h
        · unfold PoSFinalState.set_deferred_credits_part
          rw [if_neg hne, hp]
          dsimp only
          rw [if_neg hr]

/-- Witness for C3 at concrete failing inputs: a truncated varint for the
cycle part, and a truncated slot for the deferred-credits part. -/
theorem claim_c3_witness :
    (exS0.set_cycle_history_part [255]).2 = exS0 ∧
    (exS0.set_deferred_credits_part [7, 7]).2 = exS0 :=
  ⟨(claim_c3 exS0 [255]).1 (by decide), (claim_c3 exS0 [7, 7]).2 (by decide)⟩

theorem get_deferred_credits_part_eq (s : PoSFinalState) (cursor : Option Nat) :
    s.get_deferred_credits_part cursor =
      ((if (rangeOf s cursor).isEmpty then []
        else varintEncode (dcList s.deferred_credits).length)
          ++ ((rangeOf s cursor).map creditEntryBytes).flatten,
       (rangeOf s cursor).getLast?.map Prod.fst) := by
  unfold PoSFinalState.get_deferred_credits_part
  rw [foldl_creditEntry]
  cases hgl : (rangeOf s cursor).getLast? <;> simp [hgl]

/-- Claim C4: `get_deferred_credits_part` scans the entries strictly above
the cursor in ascending slot order; an empty range yields empty bytes and no
cursor; otherwise the part opens with the varint length of the FULL map
followed by the serialized entries of the range, and the returned cursor is
the last slot emitted. -/
theorem claim_c4 (s : PoSFinalState) (cursor : Option Nat)
    (hwf : NMap.Wf (dcList s.deferred_credits)) :
    ((s.get_deferred_credits_part cursor).2 = (rangeOf s cursor).getLast?.map Prod.fst) ∧
    (rangeOf s cursor = [] → s.get_deferred_credits_part cursor = ([], none)) ∧
    (rangeOf s cursor ≠ [] → (s.get_deferred_credits_part cursor).1 =
      varintEncode (dcList s.deferred_credits).length
        ++ ((rangeOf s cursor).map creditEntryBytes).flatten) ∧
    List.Pairwise (fun a b : Nat × NMap Nat => a.1 < b.1) (rangeOf s cursor) ∧
    (∀ p ∈ rangeOf s cursor, ∀ k, cursor = some k → k < p.1) ∧
    (∀ p ∈ dcList s.deferred_credits,
      (∀ k, cursor = some k → k < p.1) → p ∈ rangeOf s cursor) := by
  refine ⟨?_, ?_, ?_, ?_, ?_, ?_⟩
  · rw [get_deferred_credits_part_eq]
  · intro h
    rw [get_deferred_credits_part_eq, h]
    simp
  · intro h
    rw [get_deferred_credits_part_eq]
    have hne : (rangeOf s cursor).isEmpty = false := by
      cases hr : rangeOf s cursor with
      | nil => exact absurd hr h
      | cons a t => rfl
    rw [hne]
    simp
  · cases cursor with
    | none => exact hwf
    | some k => exact List.Pairwise.sublist (List.filter_sublist _) hwf
  · intro p hp k hk
    cases cursor with
    | none => exact Option.noConfusion hk
    | some k2 =>
      have hk2 : k2 = k := by
        injection hk
      rcases List.mem_filter.mp hp with ⟨_, hdec⟩
      rw [← hk2]
      simpa using hdec
  · intro p hp hcur
    cases cursor with
    | none => exact hp
    | some k =>
      refine List.mem_filter.mpr ⟨hp, ?_⟩
      simpa using hcur k rfl

/-- Witness for C4 at a concrete two-slot state: the scan above slot (1,0)
emits slot (2,0) and returns it as cursor, and the scan above slot (2,0) is
empty. -/
theorem claim_c4_witness :
    (exS4.get_deferred_credits_part (some 256)).2 = some 512 ∧
    exS4.get_deferred_credits_part (some 512) = ([], none) :=
  ⟨((claim_c4 exS4 (some 256) (by decide)).1).trans (by decide),
   (claim_c4 exS4 (some 512) (by decide)).2.1 (by decide)⟩

/-- Claim C5: resolution of the target index in `get_cycle_history_part`:
first index is 1 when at least 6 cycles are retained and 0 otherwise; a
cursor naming the newest cycle returns the empty part with the cursor and
complete false; a cursor matching an earlier entry emits the following index;
a cursor matching nothing restarts as if no cursor was given. -/
theorem claim_c5 (s : PoSFinalState) (c : Nat) (hs : HistSorted s.cycle_history) :
    (PoSFinalState.get_first_cycle_index s =
      if 6 ≤ s.cycle_history.length then 1 else 0) ∧
    (s.get_cycle_history_part none = emitAt s s.get_first_cycle_index) ∧
    (∀ pre info, s.cycle_history = pre ++ [info] → info.cycle = c →
      s.get_cycle_history_part (some c) = ([], some c, some false)) ∧
    (∀ (i : Nat) (info : CycleInfo), s.cycle_history[i]? = some info → info.cycle = c →
      i ≠ s.cycle_history.length - 1 →
      s.get_cycle_history_part (some c) = emitAt s (i + 1)) ∧
    ((∀ info ∈ s.cycle_history, info.cycle ≠ c) →
      s.get_cycle_history_part (some c) = s.get_cycle_history_part none) := by
  refine ⟨rfl, rfl, ?_, ?_, ?_⟩
  · intro pre info hh hc
    have hget : s.cycle_history[pre.length]? = some info := by
      rw [hh]
      exact List.getElem?_concat_length pre info
    have hpos : findPos c s.cycle_history = some pre.length := by
      have h2 := findPos_getElem s.cycle_history hs pre.length info hget
      rw [hc] at h2
      exact h2
    have hlen : pre.length = s.cycle_history.length - 1 := by
      rw [hh]
      simp
    unfold PoSFinalState.get_cycle_history_part
    dsimp only
    rw [hpos]
    dsimp only
    rw [if_pos hlen]
  · intro i info hget hc hne
    have hpos : findPos c s.cycle_history = some i := by
      have h2 := findPos_getElem s.cycle_history hs i info hget
      rw [hc] at h2
      exact h2
    unfold PoSFinalState.get_cycle_history_part
    dsimp only
    rw [hpos]
    dsimp only
    rw [if_neg hne]
  · intro hnone
    have hpos : findPos c s.cycle_history = none :=
      findPos_eq_none s.cycle_history c hnone
    unfold PoSFinalState.get_cycle_history_part
    dsimp only
    rw [hpos]

/-- Witness for C5 on a state retaining cycles 5, 6, 7. -/
theorem claim_c5_witness :
    exS5.get_cycle_history_part (some 7) = ([], some 7, some false) ∧
    exS5.get_cycle_history_part (some 5) = emitAt exS5 1 ∧
    exS5.get_cycle_history_part (some 99) = exS5.get_cycle_history_part none := by
  refine ⟨?_, ?_, ?_⟩
  · exact (claim_c5 exS5 7 (by decide)).2.2.1 [exCi 5 true, exCi 6 true] (exCi 7 false) rfl rfl
  · exact (claim_c5 exS5 5 (by decide)).2.2.2.1 0 (exCi 5 true) (by decide) rfl (by decide)
  · exact (claim_c5 exS5 99 (by decide)).2.2.2.2 (by decide)

/-- Claim C6: `set_cycle_history_part` on empty input returns `Ok(None)` with
no state change; a fully consumed payload whose cycle equals the newest
retained cycle is merged in place (complete overwritten, roll counts
extended, rng seed bits appended, production stats extended last-writer
wins); any other payload is pushed as a new back entry; both non-empty cases
return the new back cycle number. -/
theorem claim_c6 (s : PoSFinalState) (p : List Nat) (c : ParsedCycle)
    (hp : parseCycleHistoryPayload p = some (c, [])) :
    (s.set_cycle_history_part [] = (Except.ok none, s)) ∧
    (∀ pre info, s.cycle_history = pre ++ [info] → info.cycle = c.cycle →
      s.set_cycle_history_part p =
        (Except.ok (some c.cycle),
         { s with cycle_history := pre ++
             [{ cycle := info.cycle, complete := c.complete,
                roll_counts := info.roll_counts.insertList c.rolls,
                rng_seed := info.rng_seed ++ c.seed,
                production_stats := info.production_stats.insertList c.stats }] })) ∧
    ((∀ info, s.cycle_history.getLast? = some info → info.cycle ≠ c.cycle) →
      s.set_cycle_history_part p =
        (Except.ok (some c.cycle),
         { s with cycle_history := s.cycle_history ++
             [{ cycle := c.cycle, complete := c.complete,
                roll_counts := NMap.insertList [] c.rolls, rng_seed := c.seed,
                production_stats := NMap.insertList [] c.stats }] })) := by
  refine ⟨rfl, ?_, ?_⟩
  · intro pre info hh hc
    rw [set_cycle_history_part_success s p c hp]
    have happ : applyCyclePayload s.cycle_history c = pre ++ [mergeCycleInfo info c] := by
      unfold applyCyclePayload
      rw [hh, List.getLast?_concat]
      dsimp only
      rw [if_pos hc, List.dropLast_concat]
    rw [happ, List.getLast?_concat]
    unfold mergeCycleInfo
    dsimp only [Option.map]
    rw [hc]
  · intro hlast
    rw [set_cycle_history_part_success s p c hp]
    have happ : applyCyclePayload s.cycle_history c =
        s.cycle_history ++ [cycleInfoOfPayload c] := by
      unfold applyCyclePayload
      cases hgl : s.cycle_history.getLast? with
      | none => rfl
      | some info =>
        dsimp only
        rw [if_neg (hlast info hgl)]
    rw [happ, List.getLast?_concat]
    unfold cycleInfoOfPayload
    dsimp only [Option.map]

/-- Witness for C6: pushing the example payload onto the empty state, and
merging it into a state whose newest cycle is the payload's cycle 0 (the rng
seed bit is appended, complete is overwritten). -/
theorem claim_c6_witness :
    exS0.set_cycle_history_part exP0 =
      (Except.ok (some 0),
       { exS0 with cycle_history :=
           [{ cycle := 0, complete := true, roll_counts := [], rng_seed := [true],
              production_stats := [] }] }) ∧
    { exS0 with cycle_history :=
        [{ cycle := 0, complete := false, roll_counts := [], rng_seed := [true],
           production_stats := ([] : NMap ProductionStats) }] }.set_cycle_history_part exP0 =
      (Except.ok (some 0),
       { exS0 with cycle_history :=
           [{ cycle := 0, complete := true, roll_counts := [], rng_seed := [true, true],
              production_stats := [] }] }) := by
  constructor
  · exact ((claim_c6 exS0 exP0 exC0 (by decide)).2.2
      (fun info h => Option.noConfusion h)).trans (by decide)
  · exact ((claim_c6
      { exS0 with cycle_history :=
          [{ cycle := 0, complete := false, roll_counts := [], rng_seed := [true],
             production_stats := ([] : NMap ProductionStats) }] }
      exP0 exC0 (by decide)).2.1 []
      { cycle := 0, complete := false, roll_counts := [], rng_seed := [true],
        production_stats := ([] : NMap ProductionStats) } rfl rfl).trans (by decide)

theorem applyCyclePayload_shape (hist : List CycleInfo) (c : ParsedCycle)
    (hwf : HistMapsWf hist) :
    ∃ pre info1, applyCyclePayload hist c = pre ++ [info1] ∧
      info1.cycle = c.cycle ∧
      info1.complete = c.complete ∧
      info1.roll_counts.insertList c.rolls = info1.roll_counts ∧
      info1.production_stats.insertList c.stats = info1.production_stats := by
  unfold applyCyclePayload
  cases hgl : hist.getLast? with
  | none =>
    refine ⟨hist, cycleInfoOfPayload c, rfl, rfl, rfl, ?_, ?_⟩
    · exact NMap.insertList_idem [] c.rolls (List.Pairwise.nil)
    · exact NMap.insertList_idem [] c.stats (List.Pairwise.nil)
  | some info =>
    dsimp only
    by_cases hc : info.cycle = c.cycle
    · rw [if_pos hc]
      have hmem : info ∈ hist := List.mem_of_mem_getLast? hgl
      refine ⟨hist.dropLast, mergeCycleInfo info c, rfl, hc, rfl, ?_, ?_⟩
      · exact NMap.insertList_idem info.roll_counts c.rolls (hwf info hmem).1
      · exact NMap.insertList_idem info.production_stats c.stats (hwf info hmem).2
    · rw [if_neg hc]
      refine ⟨hist, cycleInfoOfPayload c, rfl, rfl, rfl, ?_, ?_⟩
      · exact NMap.insertList_idem [] c.rolls (List.Pairwise.nil)
      · exact NMap.insertList_idem [] c.stats (List.Pairwise.nil)

/-- Counterexample to C1 as stated: on the empty state the example payload
(whose rng seed holds one bit) succeeds, but applying it a second time
changes the state again — the rng seed bits are appended once more. -/
theorem claim_c1_cex :
    (exS0.set_cycle_history_part exP0).1 = Except.ok (some 0) ∧
    ((exS0.set_cycle_history_part exP0).2.set_cycle_history_part exP0).2 ≠
      (exS0.set_cycle_history_part exP0).2 := by decide

/-- Claim C1 amended: a second application of the same fully consumed payload
returns the same cursor and leaves every field of the state unchanged except
the rng seed of the newest cycle, to which the payload's seed bits are
appended once more; the double application is idempotent exactly when the
payload's seed is empty. -/
theorem claim_c1_amended (s : PoSFinalState) (p : List Nat) (c : ParsedCycle)
    (hwf : HistMapsWf s.cycle_history)
    (hp : parseCycleHistoryPayload p = some (c, [])) :
    (s.set_cycle_history_part p).1 = Except.ok (some c.cycle) ∧
    ((s.set_cycle_history_part p).2.set_cycle_history_part p).1 =
      Except.ok (some c.cycle) ∧
    ∃ pre info1,
      (s.set_cycle_history_part p).2.cycle_history = pre ++ [info1] ∧
      ((s.set_cycle_history_part p).2.set_cycle_history_part p).2 =
        { (s.set_cycle_history_part p).2 with
          cycle_history := pre ++ [{ info1 with rng_seed := info1.rng_seed ++ c.seed }] } ∧
      (c.seed = [] →
        ((s.set_cycle_history_part p).2.set_cycle_history_part p).2 =
          (s.set_cycle_history_part p).2) := by
  obtain ⟨pre, info1, happ, hcyc, hcomp, hroll, hstats⟩ :=
    applyCyclePayload_shape s.cycle_history c hwf
  have h1 := set_cycle_history_part_success s p c hp
  have hmerge1 : mergeCycleInfo info1 c = { info1 with rng_seed := info1.rng_seed ++ c.seed } := by
    unfold mergeCycleInfo
    rw [hroll, hstats, ← hcomp]
  have happ2 : applyCyclePayload (pre ++ [info1]) c =
      pre ++ [{ info1 with rng_seed := info1.rng_seed ++ c.seed }] := by
    unfold applyCyclePayload
    rw [List.getLast?_concat]
    dsimp only
    rw [if_pos hcyc, List.dropLast_concat, hmerge1]
  have hstate1 : (s.set_cycle_history_part p).2 =
      { s with cycle_history := pre ++ [info1] } := by
    rw [h1, happ]
  have h2 := set_cycle_history_part_success
    { s with cycle_history := pre ++ [info1] } p c hp
  refine ⟨?_, ?_, pre, info1, ?_, ?_, ?_⟩
  · rw [h1, happ]
    dsimp only
    rw [List.getLast?_concat]
    dsimp only [Option.map]
    rw [hcyc]
  · rw [hstate1, h2]
    dsimp only
    rw [happ2, List.getLast?_concat]
    dsimp only [Option.map]
    rw [hcyc]
  · rw [hstate1]
  · rw [hstate1, h2]
    dsimp only
    rw [happ2]
  · intro hseed
    rw [hstate1, h2]
    dsimp only
    rw [happ2, hseed, List.append_nil]

/-- Witness for the amended C1 at the concrete payload. -/
theorem claim_c1_amended_witness :
    ((exS0.set_cycle_history_part exP0).2.set_cycle_history_part exP0).1 =
      Except.ok (some 0) :=
  (claim_c1_amended exS0 exP0 exC0 (fun info h => absurd h (List.not_mem_nil info))
    (by decide)).2.1
